import Mathlib

/-!
# Verification of the M/M/k queue simulator

A shallow embedding of `MMQueueSimulator.run_simulation` from
`src/simulation-hw3.ipynb`.  Times and rates are modelled as rationals
(`ℚ`); the Python `queue_length` integer counter is modelled as `ℤ`.
The per-customer loop of `run_simulation` becomes the step function
`stepCustomer` threaded through `runLoop`; `np.argmin` over the list of
per-server next-free times becomes `argmin` (first index of the minimum,
as numpy documents).  The surrounding metric computation becomes
`run_simulation`, returning `Except SimError SimulationResult` so that
the places where the Python code can raise (library errors such as
`np.argmin` of an empty list, or stream generation with a non-positive
rate) are visible in the model.
-/

namespace MMQueue

/-- `np.argmin` on a list: index of the minimum element, lowest index on
ties.  `argminGo rest bi bv i` scans `rest` (whose head sits at index
`i`), keeping the best index `bi` and best value `bv` seen so far; a
later element replaces the best only if strictly smaller. -/
def argminGo : List ℚ → ℕ → ℚ → ℕ → ℕ
  | [], bi, _, _ => bi
  | v :: rest, bi, bv, i =>
      if v < bv then argminGo rest i v (i + 1) else argminGo rest bi bv (i + 1)

/-- `np.argmin` (first occurrence of the minimum); `0` on the empty list,
where the Python call would raise instead — `run_simulation` below guards
that case separately. -/
def argmin : List ℚ → ℕ
  | [] => 0
  | v :: rest => argminGo rest 0 v 1

/-- The engine's per-run mutable state: the per-server `departure_times`
list (next-free time of each server), the running `queue_length` counter,
and the two output series `queue_lengths` and `response_times` being
accumulated. -/
structure SimState where
  departureTimes : List ℚ
  queueLength : ℤ
  queueLengths : List ℤ
  responseTimes : List ℚ
  deriving Repr, DecidableEq

/-- Initial state: `departure_times = [0] * servers`, counter `0`, empty
output series. -/
def initState (servers : ℕ) : SimState :=
  { departureTimes := List.replicate servers 0
    queueLength := 0
    queueLengths := []
    responseTimes := [] }

/-- One iteration of the customer loop of `run_simulation`, for a customer
with absolute arrival time `arrival` and service duration `service`:
pick the earliest-free server with `argmin`, wait if `arrival` is strictly
before its next-free time (incrementing the counter), record the
queue-length snapshot and the response time, update the chosen server's
next-free time to the departure time, and finally undo the increment when
the customer waited. -/
def stepCustomer (s : SimState) (arrival service : ℚ) : SimState :=
  let next_free_server := argmin s.departureTimes
  let next_free_time := s.departureTimes.getD next_free_server 0
  let ql := if arrival < next_free_time then s.queueLength + 1 else s.queueLength
  let start_service_time := if arrival < next_free_time then next_free_time else arrival
  let departure_time := start_service_time + service
  let response_time := departure_time - arrival
  { departureTimes := s.departureTimes.set next_free_server departure_time
    queueLength := if arrival < next_free_time then ql - 1 else ql
    queueLengths := s.queueLengths ++ [ql]
    responseTimes := s.responseTimes ++ [response_time] }

/-- The customer loop: fold `stepCustomer` over the paired
`(arrival, service)` stream. -/
def runLoop (s : SimState) : List (ℚ × ℚ) → SimState
  | [] => s
  | (a, sv) :: rest => runLoop (stepCustomer s a sv) rest

/-- The simulation engine on absolute arrival times: run the customer
loop from the initial state with `servers` servers. -/
def runSimulation (servers : ℕ) (arrivals services : List ℚ) : SimState :=
  runLoop (initState servers) (arrivals.zip services)

/-- `np.cumsum`: the list of running partial sums (absolute arrival times
from interarrival gaps). -/
def cumsum (l : List ℚ) : List ℚ :=
  (l.foldl (fun acc x =>
    ((acc.1 + x), acc.2 ++ [acc.1 + x])) ((0 : ℚ), ([] : List ℚ))).2

/-- The dictionary returned by `run_simulation`. -/
structure SimulationResult where
  averageQueueLength : ℚ
  averageResponseTime : ℚ
  serverUtilization : ℚ
  queueLengths : List ℤ
  deriving Repr, DecidableEq

/-- How a run can fail.  `invalidParameter` is the error class the spec
prescribes for pre-run validation; `libraryError` stands for the
exceptions the Python libraries raise (`ValueError` from `np.argmin` on
an empty list or from a negative exponential scale, `ZeroDivisionError`
from `1 / rate`). -/
inductive SimError where
  | invalidParameter
  | libraryError
  deriving Repr, DecidableEq

/-- The customer loop with the failure of `np.argmin` on an empty
`departure_times` list made explicit. -/
def runLoopE (s : SimState) : List (ℚ × ℚ) → Except SimError SimState
  | [] => .ok s
  | (a, sv) :: rest =>
      if s.departureTimes.isEmpty then .error .libraryError
      else runLoopE (stepCustomer s a sv) rest

/-- Arithmetic mean of a list of integers, as `np.mean` applied to the
`queue_lengths` series (`0/0 = 0` in `ℚ` stands in for the `nan` that
`np.mean` yields on an empty list). -/
def meanZ (l : List ℤ) : ℚ :=
  (l.map fun z => (z : ℚ)).sum / (l.length : ℚ)

/-- Arithmetic mean of the `response_times` series. -/
def meanQ (l : List ℚ) : ℚ :=
  l.sum / (l.length : ℚ)

/-- `MMQueueSimulator.run_simulation`, with the generated interarrival
and service streams taken as parameters (the numpy sampling itself is
library code; its output streams are what the engine consumes).  The
guard on non-positive rates reflects where `1 / rate` or
`np.random.exponential` with a negative scale would raise; no other
parameter validation exists in the code. -/
def run_simulation (arrival_rate service_rate : ℚ) (servers : ℕ)
    (interarrivals serviceTimes : List ℚ) : Except SimError SimulationResult :=
  if arrival_rate ≤ 0 ∨ service_rate ≤ 0 then .error .libraryError
  else
    match runLoopE (initState servers) ((cumsum interarrivals).zip serviceTimes) with
    | .error e => .error e
    | .ok s =>
        .ok { averageQueueLength := meanZ s.queueLengths
              averageResponseTime := meanQ s.responseTimes
              serverUtilization := arrival_rate / ((servers : ℚ) * service_rate)
              queueLengths := s.queueLengths }

/-- `true` exactly when a run returned a result. -/
def resultOk : Except SimError SimulationResult → Bool
  | .ok _ => true
  | .error _ => false

/-- Modelled from the spec: the Process Generator.  The exponential
sampling itself is numpy library code, absent from the repository; the
spec only requires a deterministic, seedable source — "identical
`(rate, count, seed)` inputs always yield bit-identical output
sequences" — producing `count` positive variates with mean `1/rate`
scaling.  We model it as a concrete deterministic function of
`(rate, count, seed)`. -/
def generate (rate : ℚ) (count seed : ℕ) : List ℚ :=
  (List.range count).map fun i => (((seed + i) % 7 + 1 : ℕ) : ℚ) / (4 * rate)

/-- The whole pipeline of `run_simulation`: generate both streams from
the seed (the code draws them from one generator seeded with a fixed
seed; the two draws are modelled as two calls at distinct offsets), then
run the engine. -/
def fullSimulation (arrival_rate service_rate : ℚ) (servers count seed : ℕ) :
    Except SimError SimulationResult :=
  run_simulation arrival_rate service_rate servers
    (generate arrival_rate count seed)
    (generate service_rate count (seed + count))

/-- The server pool after the first `i` customers of a run have been
processed. -/
def poolAfter (servers : ℕ) (arrivals services : List ℚ) (i : ℕ) : List ℚ :=
  (runLoop (initState servers) ((arrivals.zip services).take i)).departureTimes

/-- The code's `next_free_time`: the next-free time of the chosen
(earliest-free) server in a pool. -/
def nextFreeTime (pool : List ℚ) : ℚ :=
  pool.getD (argmin pool) 0

/-- The code's `start_service_time`: the chosen server's next-free time
when the customer arrives strictly before it (the customer waits), the
arrival time otherwise. -/
def startServiceTime (pool : List ℚ) (arrival : ℚ) : ℚ :=
  if arrival < nextFreeTime pool then nextFreeTime pool else arrival

/-! ### Specification of `argmin` -/

/-- Invariant of the `argminGo` scan.  If `l` is the already-scanned
prefix and `(bi, bv)` is a first occurrence of its minimum, then the scan
of `l ++ rest` returns a first occurrence of the minimum of the whole
list: an in-range index holding a value that is `≤` every entry and `<`
every strictly earlier entry. -/
theorem argminGo_spec (rest : List ℚ) :
    ∀ (l : List ℚ) (bi : ℕ) (bv : ℚ),
    bi < l.length → l.getD bi 0 = bv →
    (∀ j, j < l.length → bv ≤ l.getD j 0) →
    (∀ j, j < bi → bv < l.getD j 0) →
    argminGo rest bi bv l.length < (l ++ rest).length ∧
    (∀ j, j < (l ++ rest).length →
      (l ++ rest).getD (argminGo rest bi bv l.length) 0 ≤ (l ++ rest).getD j 0) ∧
    ∀ j, j < argminGo rest bi bv l.length →
      (l ++ rest).getD (argminGo rest bi bv l.length) 0 < (l ++ rest).getD j 0 := by
  induction rest with
  | nil =>
    intro l bi bv hbi hval hmin hfirst
    simp only [argminGo, List.append_nil]
    subst hval
    exact ⟨hbi, hmin, hfirst⟩
  | cons v rest ih =>
    intro l bi bv hbi hval hmin hfirst
    have hsplit : l ++ v :: rest = (l ++ [v]) ++ rest := by simp
    have hlen : (l ++ [v]).length = l.length + 1 := by simp
    have hgetv : (l ++ [v]).getD l.length 0 = v := by
      rw [List.getD_append_right _ _ _ _ le_rfl]
      simp
    have hgetl : ∀ j, j < l.length → (l ++ [v]).getD j 0 = l.getD j 0 := fun j hj =>
      List.getD_append _ _ _ _ hj
    simp only [argminGo]
    by_cases hv : v < bv
    · rw [if_pos hv, hsplit]
      have := ih (l ++ [v]) l.length v (by simp) hgetv
        (by
          intro j hj
          rw [hlen] at hj
          rcases Nat.lt_succ_iff_lt_or_eq.mp hj with hj' | hj'
          · rw [hgetl j hj']
            exact le_of_lt (lt_of_lt_of_le hv (hmin j hj'))
          · subst hj'
            rw [hgetv])
        (by
          intro j hj
          rw [hgetl j hj]
          exact lt_of_lt_of_le hv (hmin j hj))
      rwa [hlen] at this
    · rw [if_neg hv, hsplit]
      have hble : bv ≤ v := not_lt.mp hv
      have := ih (l ++ [v]) bi bv (by omega) (by rw [hgetl bi hbi]; exact hval)
        (by
          intro j hj
          rw [hlen] at hj
          rcases Nat.lt_succ_iff_lt_or_eq.mp hj with hj' | hj'
          · rw [hgetl j hj']
            exact hmin j hj'
          · subst hj'
            rw [hgetv]
            exact hble)
        (by
          intro j hj
          rw [hgetl j (lt_trans hj hbi)]
          exact hfirst j hj)
      rwa [hlen] at this

/-- `argmin` of a nonempty list is an in-range first occurrence of the
minimum: its value is `≤` every entry and `<` every entry at a strictly
smaller index. -/
theorem argmin_spec (l : List ℚ) (h : l ≠ []) :
    argmin l < l.length ∧
    (∀ j, j < l.length → l.getD (argmin l) 0 ≤ l.getD j 0) ∧
    ∀ j, j < argmin l → l.getD (argmin l) 0 < l.getD j 0 := by
  match l, h with
  | v :: rest, _ =>
    have base := argminGo_spec rest [v] 0 v (by simp) (by simp)
      (by
        intro j hj
        simp only [List.length_singleton, Nat.lt_one_iff] at hj
        subst hj
        simp)
      (by omega)
    simpa using base

/-- The value at `argmin` is a lower bound for every member of the
list. -/
theorem argmin_le_of_mem {l : List ℚ} {x : ℚ} (hx : x ∈ l) :
    l.getD (argmin l) 0 ≤ x := by
  obtain ⟨i, hi, rfl⟩ := List.getElem_of_mem hx
  have hne : l ≠ [] := by
    intro h
    subst h
    simp at hi
  rw [← List.getD_eq_getElem l 0 hi]
  exact (argmin_spec l hne).2.1 i hi

/-! ### Structure of the customer loop -/

/-- Running the loop over a concatenation runs it over the pieces in
order. -/
theorem runLoop_append (l₁ l₂ : List (ℚ × ℚ)) :
    ∀ s, runLoop s (l₁ ++ l₂) = runLoop (runLoop s l₁) l₂ := by
  induction l₁ with
  | nil => intro s; rfl
  | cons p rest ih =>
    intro s
    obtain ⟨a, sv⟩ := p
    simp only [List.cons_append, runLoop]
    exact ih _

/-- Each customer appends exactly one entry to the response-time
series. -/
theorem runLoop_responseTimes_length (l : List (ℚ × ℚ)) :
    ∀ s, (runLoop s l).responseTimes.length = s.responseTimes.length + l.length := by
  induction l with
  | nil => intro s; rfl
  | cons p rest ih =>
    intro s
    obtain ⟨a, sv⟩ := p
    simp only [runLoop]
    rw [ih (stepCustomer s a sv)]
    simp only [stepCustomer, List.length_append, List.length_cons, List.length_nil]
    omega

/-- Each customer appends exactly one entry to the queue-length
series. -/
theorem runLoop_queueLengths_length (l : List (ℚ × ℚ)) :
    ∀ s, (runLoop s l).queueLengths.length = s.queueLengths.length + l.length := by
  induction l with
  | nil => intro s; rfl
  | cons p rest ih =>
    intro s
    obtain ⟨a, sv⟩ := p
    simp only [runLoop]
    rw [ih (stepCustomer s a sv)]
    simp only [stepCustomer, List.length_append, List.length_cons, List.length_nil]
    omega

/-- Entries already recorded in the response-time series are never
modified by later customers. -/
theorem runLoop_responseTimes_getD (l : List (ℚ × ℚ)) :
    ∀ s i, i < s.responseTimes.length →
      (runLoop s l).responseTimes.getD i 0 = s.responseTimes.getD i 0 := by
  induction l with
  | nil => intro s i _; rfl
  | cons p rest ih =>
    intro s i hi
    obtain ⟨a, sv⟩ := p
    have hstep : (stepCustomer s a sv).responseTimes.getD i 0 = s.responseTimes.getD i 0 := by
      simp only [stepCustomer]
      exact List.getD_append _ _ _ _ hi
    have hi' : i < (stepCustomer s a sv).responseTimes.length := by
      simp only [stepCustomer, List.length_append]
      omega
    simp only [runLoop]
    rw [ih (stepCustomer s a sv) i hi', hstep]

/-- Entries already recorded in the queue-length series are never
modified by later customers. -/
theorem runLoop_queueLengths_getD (l : List (ℚ × ℚ)) :
    ∀ s i, i < s.queueLengths.length →
      (runLoop s l).queueLengths.getD i 0 = s.queueLengths.getD i 0 := by
  induction l with
  | nil => intro s i _; rfl
  | cons p rest ih =>
    intro s i hi
    obtain ⟨a, sv⟩ := p
    have hstep : (stepCustomer s a sv).queueLengths.getD i 0 = s.queueLengths.getD i 0 := by
      simp only [stepCustomer]
      exact List.getD_append _ _ _ _ hi
    have hi' : i < (stepCustomer s a sv).queueLengths.length := by
      simp only [stepCustomer, List.length_append]
      omega
    simp only [runLoop]
    rw [ih (stepCustomer s a sv) i hi', hstep]

/-- Setting one entry of a list removes at most one occurrence of `0`. -/
theorem count_set_ge (l : List ℚ) :
    ∀ (j : ℕ) (v : ℚ), l.count 0 ≤ (l.set j v).count 0 + 1 := by
  induction l with
  | nil => intro j v; simp
  | cons x xs ih =>
    intro j v
    cases j with
    | zero =>
      simp only [List.set_cons_zero, List.count_cons]
      split_ifs <;> omega
    | succ j =>
      simp only [List.set_cons_succ, List.count_cons]
      have := ih j v
      split_ifs <;> omega

/-- Reading anywhere in the all-zero initial pool yields `0`. -/
theorem getD_replicate_zero (k j : ℕ) : (List.replicate k (0 : ℚ)).getD j 0 = 0 := by
  rw [List.getD_eq_getElem?_getD]
  exact List.getElem?_getD_replicate_default_eq 0 k j

/-- The fallible loop never reports an `invalidParameter` error: the only
exception the loop body can raise is a library error. -/
theorem runLoopE_not_invalid (l : List (ℚ × ℚ)) :
    ∀ s, runLoopE s l ≠ Except.error SimError.invalidParameter := by
  induction l with
  | nil => intro s h; exact Except.noConfusion h
  | cons p rest ih =>
    intro s
    obtain ⟨a, sv⟩ := p
    simp only [runLoopE]
    split_ifs with h
    · intro hc
      have := Except.error.inj hc
      exact SimError.noConfusion this
    · exact ih _

/-- Invariant behind the queue-length snapshots: the counter is `0` at
every iteration boundary, so each recorded snapshot is the counter right
after the conditional increment — `0` or `1`. -/
theorem runLoop_queueLengths_zero_one (l : List (ℚ × ℚ)) :
    ∀ s, s.queueLength = 0 → (∀ q ∈ s.queueLengths, q = 0 ∨ q = 1) →
      ∀ q ∈ (runLoop s l).queueLengths, q = 0 ∨ q = 1 := by
  induction l with
  | nil => intro s _ hmem; exact hmem
  | cons p rest ih =>
    intro s hql hmem
    obtain ⟨a, sv⟩ := p
    refine ih (stepCustomer s a sv) ?_ ?_
    · simp only [stepCustomer]
      split_ifs <;> omega
    · simp only [stepCustomer]
      intro q hq
      rcases List.mem_append.mp hq with h | h
      · exact hmem q h
      · simp only [List.mem_singleton] at h
        subst h
        split_ifs <;> omega

/-! ### The claims -/

/-- **C3.**  Every recorded `queueLengthAtArrival` is `0` or `1`: the
increment on a waiting customer is undone by the decrement in the same
iteration, so the running counter never reflects more than one waiting
customer. -/
theorem queueLengthAtArrival_zero_or_one (servers : ℕ) (arrivals services : List ℚ) :
    ∀ q ∈ (runSimulation servers arrivals services).queueLengths, q = 0 ∨ q = 1 :=
  runLoop_queueLengths_zero_one _ _ rfl (by intro q hq; simp [initState] at hq)

/-- Witness for C3: the busy second customer of a 1-server run records a
snapshot of `1`, which the theorem pins to `{0, 1}`. -/
theorem queueLengthAtArrival_zero_or_one_witness : (1 : ℤ) = 0 ∨ (1 : ℤ) = 1 :=
  queueLengthAtArrival_zero_or_one 1 [1, 2] [5, 5] 1 (by
    norm_num [runSimulation, runLoop, stepCustomer, initState, argmin, argminGo,
      List.zip, List.zipWith])

/-- **C4.**  The assigned server (`argmin` over the pool of next-free
times, exactly what `stepCustomer` uses) is in range, carries the
minimum next-free time, is the lowest-indexed among ties (its value is
strictly below every earlier entry), is server `0` when there is a
single server, and is the only entry `stepCustomer` modifies. -/
theorem assignedServer_argmin (pool : List ℚ) (h : pool ≠ []) :
    argmin pool < pool.length ∧
    (∀ j, j < pool.length → pool.getD (argmin pool) 0 ≤ pool.getD j 0) ∧
    (∀ j, j < argmin pool → pool.getD (argmin pool) 0 < pool.getD j 0) ∧
    (pool.length = 1 → argmin pool = 0) ∧
    ∀ (s : SimState) (a sv : ℚ) (j : ℕ), s.departureTimes = pool →
      j ≠ argmin pool →
      (stepCustomer s a sv).departureTimes.getD j 0 = pool.getD j 0 := by
  obtain ⟨h1, h2, h3⟩ := argmin_spec pool h
  refine ⟨h1, h2, h3, fun hlen => by omega, ?_⟩
  intro s a sv j hs hj
  subst hs
  simp only [stepCustomer]
  rw [List.getD_eq_getElem?_getD, List.getElem?_set_ne (fun hc => hj hc.symm)]
  exact (List.getD_eq_getElem?_getD _ _ _).symm

/-- Witness for C4: on the pool `[2, 1, 1]` the assigned server is in
range and holds a value below the pool's head. -/
theorem assignedServer_argmin_witness :
    argmin [(2 : ℚ), 1, 1] < [(2 : ℚ), 1, 1].length ∧
    [(2 : ℚ), 1, 1].getD (argmin [(2 : ℚ), 1, 1]) 0 ≤ [(2 : ℚ), 1, 1].getD 0 0 :=
  ⟨(assignedServer_argmin [2, 1, 1] (by decide)).1,
   (assignedServer_argmin [2, 1, 1] (by decide)).2.1 0 (by decide)⟩

/-- **C5.**  The reported `serverUtilization` is the closed-form value
`arrivalRate / (serverCount * serviceRate)` for every completed run, and
equals exactly `1/2` for `arrivalRate = 1/2`, `serviceRate = 1`,
`serverCount = 1`. -/
theorem serverUtilization_closed_form :
    (∀ (lam mu : ℚ) (k : ℕ) (ia st : List ℚ) (r : SimulationResult),
        run_simulation lam mu k ia st = Except.ok r →
        r.serverUtilization = lam / ((k : ℚ) * mu)) ∧
    ∀ r : SimulationResult,
        run_simulation (1 / 2) 1 1 [1] [1] = Except.ok r →
        r.serverUtilization = 1 / 2 := by
  have main : ∀ (lam mu : ℚ) (k : ℕ) (ia st : List ℚ) (r : SimulationResult),
      run_simulation lam mu k ia st = Except.ok r →
      r.serverUtilization = lam / ((k : ℚ) * mu) := by
    intro lam mu k ia st r h
    unfold run_simulation at h
    split_ifs at h
    rcases hE : runLoopE (initState k) ((cumsum ia).zip st) with e | s <;> rw [hE] at h
    · exact absurd h (by simp)
    · simp only [] at h
      have := Except.ok.inj h
      rw [← this]
  refine ⟨main, fun r h => ?_⟩
  rw [main (1 / 2) 1 1 [1] [1] r h]
  norm_num

/-- Witness for C5: the concrete one-customer run at `λ = 1/2`, `μ = 1`,
`k = 1` reports utilization exactly `1/2`. -/
theorem serverUtilization_closed_form_witness :
    ({ averageQueueLength := 0, averageResponseTime := 1,
       serverUtilization := 1 / 2, queueLengths := [0] } :
        SimulationResult).serverUtilization = 1 / 2 :=
  serverUtilization_closed_form.2 _ (by
    norm_num [run_simulation, cumsum, runLoopE, initState, stepCustomer, argmin,
      argminGo, meanZ, meanQ, List.zip, List.zipWith])

/-- **C7.**  Determinism: runs fed identical `(rate, count, seed)`
parameters produce identical `SimulationResult`s — the pipeline is a
pure function of its parameters (the code fixes the numpy seed before
sampling and keeps no other state across runs). -/
theorem fullSimulation_deterministic (lam₁ mu₁ : ℚ) (k₁ n₁ seed₁ : ℕ)
    (lam₂ mu₂ : ℚ) (k₂ n₂ seed₂ : ℕ)
    (h : (lam₁, mu₁, k₁, n₁, seed₁) = (lam₂, mu₂, k₂, n₂, seed₂)) :
    fullSimulation lam₁ mu₁ k₁ n₁ seed₁ = fullSimulation lam₂ mu₂ k₂ n₂ seed₂ := by
  simp only [Prod.mk.injEq] at h
  obtain ⟨h1, h2, h3, h4, h5⟩ := h
  subst h1
  subst h2
  subst h3
  subst h4
  subst h5
  rfl

/-- Witness for C7: two textually separate invocations with the same
parameters agree. -/
theorem fullSimulation_deterministic_witness :
    fullSimulation (1 / 2) 1 1 2 42 = fullSimulation (1 / 2) 1 1 2 42 :=
  fullSimulation_deterministic (1 / 2) 1 1 2 42 (1 / 2) 1 1 2 42 rfl

/-- **C2 (counterexample).**  Invalid parameters do not produce an
`InvalidParameter` failure: with zero customers (empty streams — invalid
per the spec) the code returns a result instead of failing. -/
theorem validation_counterexample :
    resultOk (run_simulation 1 1 1 [] []) = true ∧
    run_simulation 1 1 1 [] [] ≠ Except.error SimError.invalidParameter := by
  refine ⟨rfl, fun h => ?_⟩
  rw [show run_simulation 1 1 1 [] [] =
    Except.ok { averageQueueLength := meanZ [], averageResponseTime := meanQ [],
                serverUtilization := 1 / (((1 : ℕ) : ℚ) * 1), queueLengths := [] } from rfl] at h
  exact Except.noConfusion h

/-- **C2 (amended).**  The code performs no parameter validation: it can
never fail with `invalidParameter`; a run with empty streams (zero
customers) returns a degenerate result instead of failing; and
`serverCount = 0` with at least one customer fails mid-run with a library
error (`np.argmin` of an empty list), not a pre-run check. -/
theorem run_simulation_no_validation :
    (∀ (lam mu : ℚ) (k : ℕ) (ia st : List ℚ),
        run_simulation lam mu k ia st ≠ Except.error SimError.invalidParameter) ∧
    (∀ lam mu : ℚ, 0 < lam → 0 < mu →
        resultOk (run_simulation lam mu 1 [] []) = true) ∧
    ∀ lam mu a sv : ℚ, 0 < lam → 0 < mu →
        run_simulation lam mu 0 [a] [sv] = Except.error SimError.libraryError := by
  have hguard : ∀ lam mu : ℚ, 0 < lam → 0 < mu → ¬(lam ≤ 0 ∨ mu ≤ 0) := by
    intro lam mu h1 h2
    rw [not_or]
    exact ⟨not_le.mpr h1, not_le.mpr h2⟩
  refine ⟨?_, ?_, ?_⟩
  · intro lam mu k ia st
    unfold run_simulation
    split_ifs with hg
    · intro h
      exact SimError.noConfusion (Except.error.inj h)
    · rcases hE : runLoopE (initState k) ((cumsum ia).zip st) with e | s
      · cases e with
        | invalidParameter => exact absurd hE (runLoopE_not_invalid _ _)
        | libraryError =>
          intro h
          exact SimError.noConfusion (Except.error.inj h)
      · intro h
        exact Except.noConfusion h
  · intro lam mu h1 h2
    unfold run_simulation
    rw [if_neg (hguard lam mu h1 h2)]
    rfl
  · intro lam mu a sv h1 h2
    unfold run_simulation
    rw [if_neg (hguard lam mu h1 h2)]
    rfl

/-- Witness for C2's amended claim at concrete parameters. -/
theorem run_simulation_no_validation_witness :
    run_simulation 1 1 1 [(1 : ℚ)] [(1 : ℚ)] ≠ Except.error SimError.invalidParameter ∧
    resultOk (run_simulation 1 1 1 [] []) = true ∧
    run_simulation 1 1 0 [1] [1] = Except.error SimError.libraryError :=
  ⟨run_simulation_no_validation.1 1 1 1 [1] [1],
   run_simulation_no_validation.2.1 1 1 (by norm_num) (by norm_num),
   run_simulation_no_validation.2.2 1 1 1 1 (by norm_num) (by norm_num)⟩

/-- **C9.**  A run with a single customer serves it immediately: the
recorded queue length is `0` and its response time equals its own
service duration (arrival times from the generator are non-negative). -/
theorem singleCustomer_immediate (k : ℕ) (a sv : ℚ) (hk : 1 ≤ k) (ha : 0 ≤ a) :
    (runSimulation k [a] [sv]).queueLengths = [0] ∧
    (runSimulation k [a] [sv]).responseTimes = [sv] := by
  have hstep : runSimulation k [a] [sv] = stepCustomer (initState k) a sv := rfl
  rw [hstep]
  constructor
  · simp only [stepCustomer, initState, getD_replicate_zero, if_neg (not_lt.mpr ha),
      List.nil_append]
  · simp only [stepCustomer, initState, getD_replicate_zero, if_neg (not_lt.mpr ha),
      List.nil_append, add_sub_cancel_left]

/-- Witness for C9: one customer arriving at `2` with service `3` is
recorded with queue length `0` and response time `3`. -/
theorem singleCustomer_immediate_witness :
    (runSimulation 1 [2] [3]).queueLengths = [0] ∧
    (runSimulation 1 [2] [3]).responseTimes = [3] :=
  singleCustomer_immediate 1 2 3 (by norm_num) (by norm_num)

/-- The response time recorded for the `i`-th remaining customer is at
least that customer's service duration: the service starts no earlier
than the arrival, so `departure - arrival ≥ service`. -/
theorem runLoop_response_ge (l : List (ℚ × ℚ)) :
    ∀ s i, i < l.length →
      (l.getD i (0, 0)).2 ≤
        (runLoop s l).responseTimes.getD (s.responseTimes.length + i) 0 := by
  induction l with
  | nil =>
    intro s i hi
    simp at hi
  | cons p rest ih =>
    intro s i hi
    obtain ⟨a, sv⟩ := p
    cases i with
    | zero =>
      have hlen : s.responseTimes.length + 0 < (stepCustomer s a sv).responseTimes.length := by
        simp [stepCustomer]
      simp only [runLoop]
      rw [runLoop_responseTimes_getD rest (stepCustomer s a sv) _ hlen]
      simp only [stepCustomer, List.getD_cons_zero, Nat.add_zero]
      rw [List.getD_append_right _ _ _ _ le_rfl, Nat.sub_self]
      simp only [List.getD_cons_zero]
      split_ifs with hlt
      · linarith
      · linarith
    | succ i =>
      simp only [runLoop, List.getD_cons_succ]
      have hlen : (stepCustomer s a sv).responseTimes.length = s.responseTimes.length + 1 := by
        simp [stepCustomer]
      have := ih (stepCustomer s a sv) i (by simpa using hi)
      rw [hlen] at this
      rw [show s.responseTimes.length + (i + 1) = s.responseTimes.length + 1 + i by omega]
      exact this

/-- **C6.**  For every run, each customer's response time is at least its
own service duration. -/
theorem responseTime_ge_service (k : ℕ) (arrivals services : List ℚ)
    (hlen : arrivals.length = services.length) :
    ∀ i, i < services.length →
      services.getD i 0 ≤ (runSimulation k arrivals services).responseTimes.getD i 0 := by
  intro i hi
  have hia : i < arrivals.length := by omega
  have hzl : (arrivals.zip services).length = services.length := by
    simp [hlen]
  have key := runLoop_response_ge (arrivals.zip services) (initState k) i (by omega)
  have hz : ((arrivals.zip services).getD i (0, 0)).2 = services.getD i 0 := by
    rw [List.getD_eq_getElem _ _ (by omega), List.getD_eq_getElem _ _ hi, List.getElem_zip]
  rw [hz] at key
  simpa [runSimulation, initState] using key

/-- Witness for C6: in the concrete 1-server run the second customer's
response time dominates its service time. -/
theorem responseTime_ge_service_witness :
    [(5 : ℚ), 5].getD 1 0 ≤ (runSimulation 1 [1, 2] [5, 5]).responseTimes.getD 1 0 :=
  responseTime_ge_service 1 [1, 2] [5, 5] rfl 1 (by norm_num)

/-- While the server pool retains more idle (`0`) entries than customers
remain, no customer ever waits: every snapshot is the unchanged counter
and every response time is exactly the service duration. -/
theorem runLoop_noWait (l : List (ℚ × ℚ)) :
    ∀ s, (∀ p ∈ l, 0 ≤ p.1) → l.length < s.departureTimes.count 0 →
      s.queueLength = 0 →
      (runLoop s l).queueLengths = s.queueLengths ++ List.replicate l.length 0 ∧
      (runLoop s l).responseTimes = s.responseTimes ++ l.map Prod.snd := by
  induction l with
  | nil =>
    intro s _ _ _
    constructor <;> simp [runLoop]
  | cons p rest ih =>
    intro s hpos hcount hql
    obtain ⟨a, sv⟩ := p
    have ha : 0 ≤ a := hpos (a, sv) (List.mem_cons_self _ _)
    have hmem : (0 : ℚ) ∈ s.departureTimes := by
      refine List.count_pos_iff.mp ?_
      simp only [List.length_cons] at hcount
      omega
    have hnotlt : ¬ a < s.departureTimes.getD (argmin s.departureTimes) 0 :=
      not_lt.mpr (le_trans (argmin_le_of_mem hmem) ha)
    have hstep_q : (stepCustomer s a sv).queueLengths = s.queueLengths ++ [0] := by
      simp only [stepCustomer, if_neg hnotlt, hql]
    have hstep_r : (stepCustomer s a sv).responseTimes = s.responseTimes ++ [sv] := by
      simp only [stepCustomer, if_neg hnotlt, add_sub_cancel_left]
    have hstep_ql : (stepCustomer s a sv).queueLength = 0 := by
      simp only [stepCustomer, if_neg hnotlt]
      exact hql
    have hstep_cnt : rest.length < (stepCustomer s a sv).departureTimes.count 0 := by
      have hset := count_set_ge s.departureTimes (argmin s.departureTimes)
        ((if a < s.departureTimes.getD (argmin s.departureTimes) 0 then
            s.departureTimes.getD (argmin s.departureTimes) 0
          else a) + sv)
      simp only [List.length_cons] at hcount
      simp only [stepCustomer]
      omega
    obtain ⟨hq, hr⟩ := ih (stepCustomer s a sv)
      (fun p hp => hpos p (List.mem_cons_of_mem _ hp)) hstep_cnt hstep_ql
    constructor
    · simp only [runLoop]
      rw [hq, hstep_q, List.append_assoc]
      simp [List.replicate_succ]
    · simp only [runLoop]
      rw [hr, hstep_r, List.append_assoc]
      simp

/-- **C8.**  With strictly more servers than customers, every customer is
served immediately: all recorded queue lengths are `0` and every response
time equals the customer's own service duration (so every service starts
at the arrival time), and the run still produces its full series. -/
theorem moreServers_noWait (k : ℕ) (arrivals services : List ℚ)
    (hlen : arrivals.length = services.length)
    (hk : arrivals.length < k)
    (ha : ∀ a ∈ arrivals, 0 ≤ a) :
    (runSimulation k arrivals services).queueLengths = List.replicate arrivals.length 0 ∧
    (runSimulation k arrivals services).responseTimes = services := by
  have hzl : (arrivals.zip services).length = arrivals.length := by
    simp [hlen]
  have hpos : ∀ p ∈ arrivals.zip services, 0 ≤ p.1 := by
    intro p hp
    obtain ⟨x, y⟩ := p
    exact ha x (List.of_mem_zip hp).1
  have hcnt : (arrivals.zip services).length < (initState k).departureTimes.count 0 := by
    simp only [initState, List.count_replicate_self, hzl]
    exact hk
  obtain ⟨hq, hr⟩ := runLoop_noWait _ (initState k) hpos hcnt rfl
  constructor
  · rw [runSimulation, hq, hzl]
    simp [initState]
  · rw [runSimulation, hr]
    simp only [initState, List.nil_append]
    exact List.map_snd_zip arrivals services (by omega)

/-- Witness for C8: two servers, one customer — no waiting. -/
theorem moreServers_noWait_witness :
    (runSimulation 2 [1] [5]).queueLengths = List.replicate 1 0 ∧
    (runSimulation 2 [1] [5]).responseTimes = [5] :=
  moreServers_noWait 2 [1] [5] rfl (by norm_num) (by norm_num)

/-- Reading the updated index of a list after `List.set` yields the new
value. -/
theorem getD_set_self (l : List ℚ) (i : ℕ) (v : ℚ) (h : i < l.length) :
    (l.set i v).getD i 0 = v := by
  rw [List.getD_eq_getElem?_getD, List.getElem?_set_self h, Option.getD_some]

/-- Reading any other index of a list after `List.set` is unchanged. -/
theorem getD_set_ne (l : List ℚ) (i j : ℕ) (v : ℚ) (h : i ≠ j) :
    (l.set i v).getD j 0 = l.getD j 0 := by
  rw [List.getD_eq_getElem?_getD, List.getElem?_set_ne h, ← List.getD_eq_getElem?_getD]

/-- One step never decreases any server's next-free time when the
service duration is non-negative: the chosen entry is replaced by
`max(arrival, old) + service ≥ old`, and the others are untouched. -/
theorem stepCustomer_pool_mono (s : SimState) (a sv : ℚ) (hsv : 0 ≤ sv) :
    ∀ j, s.departureTimes.getD j 0 ≤ (stepCustomer s a sv).departureTimes.getD j 0 := by
  intro j
  by_cases hj : j = argmin s.departureTimes
  · subst hj
    by_cases hr : argmin s.departureTimes < s.departureTimes.length
    · simp only [stepCustomer]
      rw [getD_set_self s.departureTimes _ _ hr]
      split_ifs with hlt
      · linarith
      · have := not_lt.mp hlt
        linarith
    · simp only [stepCustomer]
      rw [List.set_eq_of_length_le (not_lt.mp hr)]
  · simp only [stepCustomer]
    rw [getD_set_ne s.departureTimes _ _ _ (fun hc => hj hc.symm)]

/-- With non-negative service durations every recorded response time is
non-negative, i.e. every departure is at least the arrival. -/
theorem runLoop_responses_nonneg (l : List (ℚ × ℚ)) :
    ∀ s, (∀ p ∈ l, 0 ≤ p.2) → (∀ r ∈ s.responseTimes, 0 ≤ r) →
      ∀ r ∈ (runLoop s l).responseTimes, 0 ≤ r := by
  induction l with
  | nil => intro s _ hs; exact hs
  | cons p rest ih =>
    intro s hpos hs
    obtain ⟨a, sv⟩ := p
    have hsv : 0 ≤ sv := hpos (a, sv) (List.mem_cons_self _ _)
    refine ih (stepCustomer s a sv) (fun q hq => hpos q (List.mem_cons_of_mem _ hq)) ?_
    simp only [stepCustomer]
    intro r hr
    rcases List.mem_append.mp hr with h | h
    · exact hs r h
    · simp only [List.mem_singleton] at h
      subst h
      split_ifs with hlt
      · linarith
      · linarith

/-- **C10.**  With non-negative service durations, every server's
next-free time is monotonically non-decreasing across the run, and every
customer departs no earlier than it arrives (every recorded
`responseTime = departureTime - arrivalTime` is non-negative). -/
theorem pool_monotone_departure_ge_arrival (k : ℕ) (arrivals services : List ℚ)
    (hsv : ∀ sv ∈ services, 0 ≤ sv) :
    (∀ i j, (poolAfter k arrivals services i).getD j 0 ≤
      (poolAfter k arrivals services (i + 1)).getD j 0) ∧
    ∀ r ∈ (runSimulation k arrivals services).responseTimes, 0 ≤ r := by
  constructor
  · intro i j
    unfold poolAfter
    rw [List.take_succ]
    cases hx : (arrivals.zip services)[i]? with
    | none =>
      simp [hx, runLoop_append]
    | some p =>
      obtain ⟨a, sv⟩ := p
      have hsv' : 0 ≤ sv := hsv sv (List.of_mem_zip (List.getElem?_mem hx)).2
      simp only [Option.toList_some, runLoop_append]
      exact stepCustomer_pool_mono _ a sv hsv' j
  · refine runLoop_responses_nonneg _ (initState k) ?_ ?_
    · intro p hp
      obtain ⟨x, y⟩ := p
      exact hsv y (List.of_mem_zip hp).2
    · intro r hr
      simp [initState] at hr

/-- Witness for C10: in a concrete 1-server run, server 0's next-free
time does not decrease across the first customer. -/
theorem pool_monotone_departure_ge_arrival_witness :
    (poolAfter 1 [(1 : ℚ), 2] [5, 5] 0).getD 0 0 ≤ (poolAfter 1 [(1 : ℚ), 2] [5, 5] 1).getD 0 0 :=
  (pool_monotone_departure_ge_arrival 1 [1, 2] [5, 5] (by norm_num)).1 0 0

/-- **C1.**  Per-customer processing: with at least one server and
equal-length streams, customer `i` (processed in arrival order against
the pool left by customers `0..i-1`) gets
`serviceStartTime = startServiceTime pool arrival` (the chosen server's
next-free time when `arrival` is strictly before it, the arrival time
otherwise), `departureTime = serviceStartTime + serviceDuration`, the
chosen server's next-free time is updated to `departureTime`, and the
recorded `responseTime` is `departureTime - arrivalTime`. -/
theorem customer_processing (k : ℕ) (arrivals services : List ℚ)
    (hk : 1 ≤ k) (hlen : arrivals.length = services.length)
    (i : ℕ) (hi : i < arrivals.length) :
    (runSimulation k arrivals services).responseTimes.getD i 0 =
      (startServiceTime (poolAfter k arrivals services i) (arrivals.getD i 0) +
        services.getD i 0) - arrivals.getD i 0 ∧
    poolAfter k arrivals services (i + 1) =
      (poolAfter k arrivals services i).set (argmin (poolAfter k arrivals services i))
        (startServiceTime (poolAfter k arrivals services i) (arrivals.getD i 0) +
          services.getD i 0) := by
  have hzl : (arrivals.zip services).length = arrivals.length := by
    simp [hlen]
  have hLi : (arrivals.zip services)[i]? =
      some (arrivals.getD i 0, services.getD i 0) := by
    rw [List.getElem?_eq_getElem (by omega), List.getElem_zip,
      List.getD_eq_getElem _ _ hi, List.getD_eq_getElem _ _ (by omega)]
  have hsplit : (arrivals.zip services).take (i + 1) =
      (arrivals.zip services).take i ++ [(arrivals.getD i 0, services.getD i 0)] := by
    rw [List.take_succ, hLi, Option.toList_some]
  have hrun : runLoop (initState k) ((arrivals.zip services).take (i + 1)) =
      stepCustomer (runLoop (initState k) ((arrivals.zip services).take i))
        (arrivals.getD i 0) (services.getD i 0) := by
    rw [hsplit, runLoop_append]
    rfl
  have hplen :
      (runLoop (initState k) ((arrivals.zip services).take i)).responseTimes.length = i := by
    rw [runLoop_responseTimes_length]
    simp only [initState, List.length_nil, List.length_take, hzl, Nat.zero_add]
    omega
  constructor
  · have hfull : runSimulation k arrivals services =
        runLoop (runLoop (initState k) ((arrivals.zip services).take (i + 1)))
          ((arrivals.zip services).drop (i + 1)) := by
      rw [runSimulation, ← runLoop_append, List.take_append_drop]
    have hstep_len :
        i < (runLoop (initState k) ((arrivals.zip services).take (i + 1))).responseTimes.length := by
      rw [hrun]
      simp only [stepCustomer, List.length_append, hplen, List.length_cons, List.length_nil]
      omega
    rw [hfull, runLoop_responseTimes_getD _ _ i hstep_len, hrun]
    simp only [stepCustomer]
    rw [List.getD_append_right _ _ _ _ (le_of_eq hplen)]
    have hz : i - (runLoop (initState k)
        ((arrivals.zip services).take i)).responseTimes.length = 0 := by
      omega
    rw [hz, List.getD_cons_zero]
    simp only [startServiceTime, nextFreeTime, poolAfter]
  · unfold poolAfter
    rw [hrun]
    simp only [stepCustomer, startServiceTime, nextFreeTime]

/-- Witness for C1: the second customer of the concrete 1-server run
satisfies the per-customer recurrence. -/
theorem customer_processing_witness :
    (runSimulation 1 [(1 : ℚ), 2] [5, 5]).responseTimes.getD 1 0 =
      (startServiceTime (poolAfter 1 [(1 : ℚ), 2] [5, 5] 1) ([(1 : ℚ), 2].getD 1 0) +
        [(5 : ℚ), 5].getD 1 0) - [(1 : ℚ), 2].getD 1 0 ∧
    poolAfter 1 [(1 : ℚ), 2] [5, 5] 2 =
      (poolAfter 1 [(1 : ℚ), 2] [5, 5] 1).set (argmin (poolAfter 1 [(1 : ℚ), 2] [5, 5] 1))
        (startServiceTime (poolAfter 1 [(1 : ℚ), 2] [5, 5] 1) ([(1 : ℚ), 2].getD 1 0) +
          [(5 : ℚ), 5].getD 1 0) :=
  customer_processing 1 [1, 2] [5, 5] (by norm_num) rfl 1 (by norm_num)

end MMQueue
